import Mathlib

set_option autoImplicit false

/-!
Verification development for the crewAI flow engine
(`src/crewai/flow/flow.py`).

The file shallowly embeds the two components of that module:

* the graph builder `FlowMeta.__new__`, which scans the class dict for
  attributes tagged by the `start` and `listen` decorators and produces
  the `_start_methods` list and the `_listeners` mapping, and
* the execution engine `Flow.run` / `Flow._execute_listeners`, which
  walks the trigger graph depth first, propagating each step result to
  the listeners registered on the producing step, and containing step
  errors at the `try`/`except` in `_execute_listeners`.

Step bodies are opaque collaborators: a body receives the shared state
and the optional upstream result (none when invoked as an entry point)
and returns the new state together with a result or a raised error
message.  Execution is instrumented with a trace of events so that
invocation order, payloads and reported errors are observable.  The
Python original recurses without bound; the embedding threads a fuel
counter, and running out of fuel is a distinguished outcome standing
for hitting the interpreter recursion limit.
-/

namespace Crewai

/-- A step body: one callable method of a flow class, as the engine sees
it.  It receives the current shared state and the optional upstream
result (`none` for an entry point invocation, `some r` for a listener
invocation), and returns the updated state together with either a result
or a raised error message. -/
abbrev StepBody (σ α : Type) := σ → Option α → σ × Except String α

/-- One attribute of a class body: the metadata the `start` and `listen`
decorators attach to a method (`__is_start_method__` as `is_start`,
`__trigger_methods__` as `triggers`), plus the callable itself.  An
attribute with neither tag is modelled by `is_start = false` and
`triggers = []`, which the graph builder treats identically. -/
structure Attr (σ α : Type) where
  is_start : Bool
  triggers : List String
  body : StepBody σ α

/-- A class dict: the ordered list of named attributes of one class
body, in declaration order (Python dicts preserve insertion order). -/
abbrev ClassDict (σ α : Type) := List (String × Attr σ α)

/-- Ordered association lookup, first match wins (dict subscript). -/
def lookupAssoc {β : Type} : List (String × β) → String → Option β
  | [], _ => none
  | (k, v) :: rest, n => if k = n then some v else lookupAssoc rest n

/-- The value list stored under a key, defaulting to the empty list when
the key is absent. -/
def lookupListD (m : List (String × List String)) (t : String) : List String :=
  (lookupAssoc m t).getD []

/-- One update of the listeners dict in `FlowMeta.__new__`: create the
key on first use and append the listener name at the end of its list
(`listeners[trigger_name].append(attr_name)`). -/
def addListener : List (String × List String) → String → String → List (String × List String)
  | [], t, n => [(t, [n])]
  | (k, v) :: rest, t, n =>
      if k = t then (k, v ++ [n]) :: rest else (k, v) :: addListener rest t n

/-- The `_start_methods` list collected by `FlowMeta.__new__`: the names
of the attributes carrying the start tag, in declaration order. -/
def buildStartMethods {σ α : Type} (dct : ClassDict σ α) : List String :=
  dct.foldl (fun acc p => if p.2.is_start then acc ++ [p.1] else acc) []

/-- The `_listeners` dict collected by `FlowMeta.__new__`: for each
attribute, for each of its declared triggers in the order the author
listed them, append the attribute name under that trigger. -/
def buildListeners {σ α : Type} (dct : ClassDict σ α) : List (String × List String) :=
  dct.foldl (fun m p => p.2.triggers.foldl (fun m2 t => addListener m2 t p.1) m) []

/-- A flow class after `FlowMeta.__new__` ran: its own class dict (the
only thing the metaclass inspects) and the attributes inherited from
base classes (visible to attribute lookup but never scanned by the
metaclass of the subclass). -/
structure FlowClass (σ α : Type) where
  dct : ClassDict σ α
  inherited : ClassDict σ α

/-- The `_start_methods` attribute of a flow class. -/
def FlowClass.startMethods {σ α : Type} (fc : FlowClass σ α) : List String :=
  buildStartMethods fc.dct

/-- The `_listeners` attribute of a flow class. -/
def FlowClass.listenerMap {σ α : Type} (fc : FlowClass σ α) : List (String × List String) :=
  buildListeners fc.dct

/-- Whether a name begins with a double underscore (the names that
`Flow.__init__` filters out of `self._methods`). -/
def isDunder (n : String) : Bool :=
  match n.data with
  | '_' :: '_' :: _ => true
  | _ => false

/-- The `self._methods` lookup built in `Flow.__init__`: every callable
attribute reachable on the instance whose name does not begin with a
double underscore, own class body shadowing inherited ones.  Returns
`none` exactly when the Python subscript would raise `KeyError`. -/
def FlowClass.findBody {σ α : Type} (fc : FlowClass σ α) (n : String) : Option (StepBody σ α) :=
  if isDunder n then none
  else
    match lookupAssoc fc.dct n with
    | some a => some a.body
    | none => (lookupAssoc fc.inherited n).map (·.body)

/-- An observable event of one run: a step invocation carrying the
payload it was invoked with, or an error report (the `print` in the
`except` branch of `_execute_listeners`). -/
inductive Ev (α : Type) where
  | call (stepName : String) (input : Option α)
  | report (stepName : String) (msg : String)
  deriving DecidableEq

/-- The step name an event is about. -/
def Ev.name {α : Type} : Ev α → String
  | .call n _ => n
  | .report n _ => n

/-- Whether a trace mentions a given step name, in a call or a report. -/
def traceMentions {α : Type} : List (Ev α) → String → Bool
  | [], _ => false
  | ev :: tr, n => if ev.name = n then true else traceMentions tr n

/-- Outcome of a listener dispatch: normal completion with the trace and
the final state (`_execute_listeners` itself never raises because its
`try` catches every exception), or fuel exhaustion. -/
inductive ExecOut (σ α : Type) where
  | done (tr : List (Ev α)) (s : σ)
  | fuelOut (tr : List (Ev α))
  deriving DecidableEq

/-- The trace of a dispatch outcome. -/
def ExecOut.trace {σ α : Type} : ExecOut σ α → List (Ev α)
  | .done tr _ => tr
  | .fuelOut tr => tr

/-- The listener loop of `Flow._execute_listeners`, processing the
pending listeners of one trigger with the trigger result as payload.
For each listener, inside one `try`: look its body up (`KeyError` is
caught and reported), invoke it, and recursively dispatch the listeners
of the listener on its own result (the nested match inlines the body of
`_execute_listeners` at its recursive call site).  On a caught error the
loop reports it and returns at once, so the remaining pending listeners
are dropped.  Fuel is consumed on every loop step and every descent. -/
def execGo {σ α : Type} (fc : FlowClass σ α) : Nat → List String → α → σ → ExecOut σ α
  | _, [], _, s => .done [] s
  | 0, _ :: _, _, _ => .fuelOut []
  | f + 1, l :: rest, result, s =>
    match fc.findBody l with
    | none => .done [.report l ("KeyError")] s
    | some b =>
      match b s (some result) with
      | (s1, .error msg) => .done [.call l (some result), .report l msg] s1
      | (s1, .ok r1) =>
        match (match lookupAssoc fc.listenerMap l with
               | none => ExecOut.done [] s1
               | some ls1 => execGo fc f ls1 r1 s1) with
        | .fuelOut tr => .fuelOut (.call l (some result) :: tr)
        | .done tr s2 =>
          match execGo fc f rest result s2 with
          | .fuelOut tr2 => .fuelOut (.call l (some result) :: (tr ++ tr2))
          | .done tr2 s3 => .done (.call l (some result) :: (tr ++ tr2)) s3

/-- `Flow._execute_listeners`: if the trigger has no entry in the
listeners dict, return at once; otherwise run the listener loop. -/
def execListeners {σ α : Type} (fc : FlowClass σ α) (fuel : Nat) (trigger : String)
    (result : α) (s : σ) : ExecOut σ α :=
  match lookupAssoc fc.listenerMap trigger with
  | none => .done [] s
  | some ls => execGo fc fuel ls result s

/-- Outcome of `Flow.run`: normal completion, an exception escaping
`run` (the configuration error, a `KeyError` on an entry point name, or
an error raised by an entry point body, none of which sit inside a
`try`), or fuel exhaustion. -/
inductive RunOut (σ α : Type) where
  | ok (tr : List (Ev α)) (s : σ)
  | raised (msg : String) (tr : List (Ev α)) (s : σ)
  | fuelOut (tr : List (Ev α))
  deriving DecidableEq

/-- The trace of a run outcome. -/
def RunOut.trace {σ α : Type} : RunOut σ α → List (Ev α)
  | .ok tr _ => tr
  | .raised _ tr _ => tr
  | .fuelOut tr => tr

/-- Whether the run ended with an exception escaping `run`. -/
def RunOut.isRaised {σ α : Type} : RunOut σ α → Bool
  | .raised _ _ _ => true
  | _ => false

/-- Whether the run completed normally. -/
def RunOut.isOk {σ α : Type} : RunOut σ α → Bool
  | .ok _ _ => true
  | _ => false

/-- Whether the run aborted on fuel exhaustion. -/
def RunOut.isFuelOut {σ α : Type} : RunOut σ α → Bool
  | .fuelOut _ => true
  | _ => false

/-- The entry point loop of `Flow.run`: invoke each start method with no
upstream result and dispatch its listeners on the returned result.
Neither the method lookup nor the invocation sits inside a `try`, so a
`KeyError` or an error raised by the entry point body escapes `run`. -/
def runLoop {σ α : Type} (fc : FlowClass σ α) (fuel : Nat) : List String → σ → RunOut σ α
  | [], s => .ok [] s
  | m :: rest, s =>
    match fc.findBody m with
    | none => .raised ("KeyError") [] s
    | some b =>
      match b s none with
      | (s1, .error msg) => .raised msg [.call m none] s1
      | (s1, .ok r) =>
        match execListeners fc fuel m r s1 with
        | .fuelOut tr => .fuelOut (.call m none :: tr)
        | .done tr s2 =>
          match runLoop fc fuel rest s2 with
          | .ok tr2 s3 => .ok (.call m none :: (tr ++ tr2)) s3
          | .raised msg tr2 s3 => .raised msg (.call m none :: (tr ++ tr2)) s3
          | .fuelOut tr2 => .fuelOut (.call m none :: (tr ++ tr2))

/-- `Flow.run`: raise the configuration error when no start method is
declared, otherwise run every start method in declaration order. -/
def runFlow {σ α : Type} (fc : FlowClass σ α) (fuel : Nat) (s0 : σ) : RunOut σ α :=
  if fc.startMethods = [] then .raised ("No start method defined") [] s0
  else runLoop fc fuel fc.startMethods s0

/-- One insertion into a Python dict under construction: an assignment
to an existing key replaces its value in place (the key keeps its first
position), an assignment to a new key appends it at the end.  This is
how the class dict handed to `FlowMeta.__new__` arises from the class
body when the body declares the same name more than once. -/
def dictInsert {β : Type} : List (String × β) → String → β → List (String × β)
  | [], k, v => [(k, v)]
  | (k1, v1) :: rest, k, v =>
      if k1 = k then (k, v) :: rest else (k1, v1) :: dictInsert rest k v

/-- The class dict Python builds from an ordered class body, collapsing
repeated names by `dictInsert`. -/
def classDict {β : Type} (body : List (String × β)) : List (String × β) :=
  body.foldl (fun d p => dictInsert d p.1 p.2) []

/-! Model of `Flow._create_initial_state`.  The interesting behaviour is
object identity (the supplied value is returned uncopied), so state
values carry an allocation address. -/

/-- The payload of a Python state object: the empty dict literal, a dict
with entries, or an instance of a user class. -/
inductive StateData where
  | dict (entries : List (String × Int))
  | inst (cls : String)
  deriving DecidableEq

/-- A Python object: an allocation address plus its payload.  Two
aliases of one object share the address; a copy would get a fresh
address. -/
structure PyObj where
  addr : Nat
  data : StateData
  deriving DecidableEq

/-- The `initial_state` attribute: `None`, a type (calling it allocates
a fresh instance), or an already constructed value. -/
inductive InitialState where
  | noneVal
  | typeVal (construct : Nat → PyObj)
  | value (obj : PyObj)

/-- `Flow._create_initial_state`, with `fresh` the next unused address:
`None` becomes a freshly allocated empty dict literal, a type is called
(allocating at `fresh`), and anything else is returned as is, without
any copy. -/
def createInitialState (fresh : Nat) : InitialState → PyObj
  | .noneVal => ⟨fresh, .dict []⟩
  | .typeVal construct => construct fresh
  | .value obj => obj

/-! Spec side descriptions of the graph builder, used for the
refinement claim about `FlowMeta.__new__`.  These transcribe the words
of the specification, not the code. -/

/-- Spec description of `entryPoints`: the identifiers of the steps
tagged as entry points, in declaration order. -/
def specEntryPoints {σ α : Type} (dct : ClassDict σ α) : List String :=
  (dct.filter (fun p => p.2.is_start)).map (·.1)

/-- Spec description of `listenersByTrigger[t]`: the identifiers of the
listeners declaring trigger `t`, in the order the listener steps were
declared in the definition. -/
def specListenersAt {σ α : Type} (dct : ClassDict σ α) (t : String) : List String :=
  (dct.filter (fun p => t ∈ p.2.triggers)).map (·.1)


/-- Attribute of an entry point method. -/
def startAttr {σ α : Type} (b : StepBody σ α) : Attr σ α := ⟨true, [], b⟩

/-- Attribute of a listener method. -/
def listenAttr {σ α : Type} (ts : List String) (b : StepBody σ α) : Attr σ α := ⟨false, ts, b⟩

/-- The chain scenario of the spec: entry point `fetch` returning `10`,
listener `double` on `fetch` returning twice its input, listener
`report` on `double`. -/
def chainFlow : FlowClass Unit Int :=
  ⟨[("fetch", startAttr fun s _ => (s, .ok 10)),
    ("double", listenAttr ["fetch"] fun s r => (s, .ok (2 * r.getD 0))),
    ("report", listenAttr ["double"] fun s r => (s, .ok (r.getD 0)))], []⟩


/-- Every method name in the list resolves in the method registry and
its body never raises when invoked as an entry point (that is, with no
upstream result), whatever the state it is invoked in. -/
def entriesOk {σ α : Type} (fc : FlowClass σ α) (ms : List String) : Prop :=
  ∀ m ∈ ms, ∃ b, fc.findBody m = some b ∧ ∀ st, ∃ r s1, b st none = (s1, Except.ok r)

/-- Interleave entry point names with the traces of their listener
subtrees: the shape of a complete run trace, one block per entry point,
each block opened by the entry point invocation itself. -/
def blocksJoin {α : Type} : List String → List (List (Ev α)) → List (Ev α)
  | m :: ms, bl :: bls => .call m none :: (bl ++ blocksJoin ms bls)
  | _, _ => []

/-- The names of the entry point invocations of a trace, in order: the
calls carrying no upstream result. -/
def entryCallNames {α : Type} (tr : List (Ev α)) : List String :=
  tr.filterMap fun ev =>
    match ev with
    | .call m none => some m
    | _ => none

/-- The empty flow class: no declared steps at all. -/
def emptyFlow : FlowClass Unit Int := ⟨[], []⟩

/-- Scenario flow for failure containment: entry point x, listener y on
x whose body raises, and a second, independent listener z on x. -/
def cexSiblingFlow : FlowClass Unit Int :=
  ⟨[("x", startAttr fun s _ => (s, .ok 0)),
    ("y", listenAttr ["x"] fun s _ => (s, .error ("boom"))),
    ("z", listenAttr ["x"] fun s r => (s, .ok (r.getD 0)))], []⟩

/-- Flow whose single entry point raises. -/
def cexEntryRaiseFlow : FlowClass Unit Int :=
  ⟨[("a", startAttr fun s _ => (s, .error ("boom")))], []⟩

/-- Flow with two entry points, the first of which raises. -/
def cexTwoEntryFlow : FlowClass Unit Int :=
  ⟨[("a", startAttr fun s _ => (s, .error ("boom"))),
    ("b", startAttr fun s _ => (s, .ok 2))], []⟩

/-- Scenario flow: two entry points declared in order a, b, neither with
listeners. -/
def twoEntryFlow : FlowClass Unit Int :=
  ⟨[("a", startAttr fun s _ => (s, .ok 1)),
    ("b", startAttr fun s _ => (s, .ok 2))], []⟩

/-- Flow with a listener w whose declared trigger names no declared
step. -/
def danglingFlow : FlowClass Unit Int :=
  ⟨[("x", startAttr fun s _ => (s, .ok 0)),
    ("w", listenAttr ["ghost"] fun s r => (s, .ok (r.getD 0)))], []⟩

/-- A class body declaring the same identifier twice; the two bodies
write different state values, which makes them distinguishable at run
time. -/
def dupBody : List (String × Attr Int Int) :=
  [("a", startAttr fun _ _ => (111, .ok 1)),
   ("a", startAttr fun _ _ => (222, .ok 2))]

/-- The flow class built over the Python class dict of `dupBody`. -/
def dupFlow : FlowClass Int Int := ⟨classDict dupBody, []⟩

/-- Parent class body for the inheritance scenario: an entry point p
with a listener q. -/
def parentBody : ClassDict Unit Int :=
  [("p", startAttr fun s _ => (s, .ok 1)),
   ("q", listenAttr ["p"] fun s r => (s, .ok (r.getD 0)))]

/-- Child class body: one own entry point, no redeclaration of the
parent steps. -/
def childBody : ClassDict Unit Int :=
  [("c", startAttr fun s _ => (s, .ok 3))]

/-- The child flow class: the metaclass scanned only `childBody`; the
parent attributes are merely inherited. -/
def childFlow : FlowClass Unit Int := ⟨childBody, parentBody⟩

end Crewai

namespace Crewai

/-! Association list lemmas about the listeners dict. -/

@[simp]
theorem lookupListD_nil (t : String) : lookupListD [] t = [] := rfl

theorem lookupListD_addListener_self (m : List (String × List String)) (t n : String) :
    lookupListD (addListener m t n) t = lookupListD m t ++ [n] := by
  induction m with
  | nil => simp [addListener, lookupListD, lookupAssoc]
  | cons p rest ih =>
    obtain ⟨k, v⟩ := p
    by_cases hk : k = t
    · subst hk
      simp [addListener, lookupListD, lookupAssoc]
    · simpa [addListener, lookupListD, lookupAssoc, hk] using ih

theorem lookupListD_addListener_other (m : List (String × List String)) (t t1 n : String)
    (h : t ≠ t1) : lookupListD (addListener m t1 n) t = lookupListD m t := by
  induction m with
  | nil => simp [addListener, lookupListD, lookupAssoc, Ne.symm h]
  | cons p rest ih =>
    obtain ⟨k, v⟩ := p
    by_cases hk : k = t1
    · subst hk
      simp [addListener, lookupListD, lookupAssoc, Ne.symm h]
    · by_cases hkt : k = t
      · subst hkt
        simp [addListener, lookupListD, lookupAssoc, hk]
      · simpa [addListener, lookupListD, lookupAssoc, hk, hkt] using ih

theorem mem_lookupListD_addListener (m : List (String × List String)) (t t1 n x : String) :
    x ∈ lookupListD (addListener m t1 n) t ↔
      x ∈ lookupListD m t ∨ (t = t1 ∧ x = n) := by
  by_cases ht : t = t1
  · subst ht
    simp [lookupListD_addListener_self]
  · simp [lookupListD_addListener_other m t t1 n ht, ht]

theorem lookupListD_trigFold_not_mem (ts : List String) (m : List (String × List String))
    (t n : String) (h : t ∉ ts) :
    lookupListD (ts.foldl (fun m2 t2 => addListener m2 t2 n) m) t = lookupListD m t := by
  induction ts generalizing m with
  | nil => rfl
  | cons t1 ts ih =>
    have h1 : t ≠ t1 := fun he => h (he ▸ List.mem_cons_self t1 ts)
    have h2 : t ∉ ts := fun he => h (List.mem_cons_of_mem t1 he)
    simpa [List.foldl_cons, lookupListD_addListener_other m t t1 n h1] using
      ih (addListener m t1 n) h2

theorem lookupListD_trigFold_nodup (ts : List String) (m : List (String × List String))
    (t n : String) (h : ts.Nodup) :
    lookupListD (ts.foldl (fun m2 t2 => addListener m2 t2 n) m) t =
      lookupListD m t ++ (if t ∈ ts then [n] else []) := by
  induction ts generalizing m with
  | nil => simp
  | cons t1 ts ih =>
    obtain ⟨h1, h2⟩ := List.nodup_cons.mp h
    by_cases ht : t = t1
    · subst ht
      have : t ∉ ts := h1
      simp [List.foldl_cons, lookupListD_trigFold_not_mem ts (addListener m t n) t n this,
        lookupListD_addListener_self]
    · simp only [List.foldl_cons]
      rw [ih (addListener m t1 n) h2, lookupListD_addListener_other m t t1 n ht]
      simp [ht]

theorem mem_lookupListD_trigFold (ts : List String) (m : List (String × List String))
    (t n x : String) :
    x ∈ lookupListD (ts.foldl (fun m2 t2 => addListener m2 t2 n) m) t ↔
      x ∈ lookupListD m t ∨ (t ∈ ts ∧ x = n) := by
  induction ts generalizing m with
  | nil => simp
  | cons t1 ts ih =>
    simp only [List.foldl_cons]
    rw [ih (addListener m t1 n)]
    rw [mem_lookupListD_addListener m t t1 n x]
    constructor
    · rintro ((h | ⟨rfl, rfl⟩) | ⟨hm, rfl⟩)
      · exact Or.inl h
      · exact Or.inr ⟨List.mem_cons_self _ _, rfl⟩
      · exact Or.inr ⟨List.mem_cons_of_mem _ hm, rfl⟩
    · rintro (h | ⟨hm, rfl⟩)
      · exact Or.inl (Or.inl h)
      · rcases List.mem_cons.mp hm with rfl | hm
        · exact Or.inl (Or.inr ⟨rfl, rfl⟩)
        · exact Or.inr ⟨hm, rfl⟩

theorem lookupListD_buildListeners_go {σ α : Type} (t : String) :
    ∀ (dct : ClassDict σ α) (m : List (String × List String)),
      (∀ p ∈ dct, p.2.triggers.Nodup) →
      lookupListD
          (dct.foldl (fun m2 p => p.2.triggers.foldl (fun m3 t2 => addListener m3 t2 p.1) m2) m)
          t =
        lookupListD m t ++ specListenersAt dct t := by
  intro dct
  induction dct with
  | nil =>
    intro m _
    simp [specListenersAt]
  | cons p dct ih =>
    intro m h
    have hp : p.2.triggers.Nodup := h p (List.mem_cons_self _ _)
    have hrest : ∀ q ∈ dct, q.2.triggers.Nodup := fun q hq => h q (List.mem_cons_of_mem _ hq)
    simp only [List.foldl_cons]
    rw [ih _ hrest, lookupListD_trigFold_nodup p.2.triggers m t p.1 hp]
    by_cases ht : t ∈ p.2.triggers
    · simp [specListenersAt, List.filter_cons, ht]
    · simp [specListenersAt, List.filter_cons, ht]

theorem lookupListD_buildListeners {σ α : Type} (dct : ClassDict σ α) (t : String)
    (h : ∀ p ∈ dct, p.2.triggers.Nodup) :
    lookupListD (buildListeners dct) t = specListenersAt dct t := by
  simpa [buildListeners] using lookupListD_buildListeners_go t dct [] h

theorem mem_buildListeners_go {σ α : Type} (t x : String) :
    ∀ (dct : ClassDict σ α) (m : List (String × List String)),
      x ∈ lookupListD
            (dct.foldl (fun m2 p => p.2.triggers.foldl (fun m3 t2 => addListener m3 t2 p.1) m2) m)
            t ↔
        x ∈ lookupListD m t ∨ ∃ p, p ∈ dct ∧ p.1 = x ∧ t ∈ p.2.triggers := by
  intro dct
  induction dct with
  | nil =>
    intro m
    simp
  | cons q dct ih =>
    intro m
    simp only [List.foldl_cons]
    rw [ih (q.2.triggers.foldl (fun m3 t2 => addListener m3 t2 q.1) m)]
    rw [mem_lookupListD_trigFold q.2.triggers m t q.1 x]
    constructor
    · rintro ((h | ⟨hm, rfl⟩) | ⟨p, hp, rfl, hpt⟩)
      · exact Or.inl h
      · exact Or.inr ⟨q, List.mem_cons_self _ _, rfl, hm⟩
      · exact Or.inr ⟨p, List.mem_cons_of_mem _ hp, rfl, hpt⟩
    · rintro (h | ⟨p, hp, rfl, hpt⟩)
      · exact Or.inl (Or.inl h)
      · rcases List.mem_cons.mp hp with rfl | hp
        · exact Or.inl (Or.inr ⟨hpt, rfl⟩)
        · exact Or.inr ⟨p, hp, rfl, hpt⟩

theorem mem_buildListeners {σ α : Type} (dct : ClassDict σ α) (t x : String) :
    x ∈ lookupListD (buildListeners dct) t ↔
      ∃ p, p ∈ dct ∧ p.1 = x ∧ t ∈ p.2.triggers := by
  simpa [buildListeners] using mem_buildListeners_go t x dct []

theorem buildStartMethods_go {σ α : Type} :
    ∀ (dct : ClassDict σ α) (acc : List String),
      dct.foldl (fun acc2 p => if p.2.is_start then acc2 ++ [p.1] else acc2) acc =
        acc ++ specEntryPoints dct := by
  intro dct
  induction dct with
  | nil =>
    intro acc
    simp [specEntryPoints]
  | cons p dct ih =>
    intro acc
    by_cases hp : p.2.is_start
    · simp [List.foldl_cons, hp, ih, specEntryPoints, List.filter_cons]
    · simp [List.foldl_cons, hp, ih, specEntryPoints, List.filter_cons]

theorem buildStartMethods_eq_spec {σ α : Type} (dct : ClassDict σ α) :
    buildStartMethods dct = specEntryPoints dct := by
  simpa [buildStartMethods] using buildStartMethods_go dct []

/-! Lookup and key lemmas. -/

theorem lookupAssoc_isSome_of_mem_keys {β : Type} (l : List (String × β)) (n : String)
    (h : n ∈ l.map (·.1)) : ∃ v, lookupAssoc l n = some v := by
  induction l with
  | nil => simp at h
  | cons p rest ih =>
    obtain ⟨k, v⟩ := p
    by_cases hk : k = n
    · exact ⟨v, by simp [lookupAssoc, hk]⟩
    · have : n ∈ rest.map (·.1) := by
        rcases List.mem_map.mp h with ⟨q, hq, hqn⟩
        rcases List.mem_cons.mp hq with rfl | hq
        · exact absurd hqn hk
        · exact List.mem_map.mpr ⟨q, hq, hqn⟩
      simpa [lookupAssoc, hk] using ih this

theorem lookupAssoc_eq_some_of_nodup {β : Type} (l : List (String × β)) (n : String) (v : β)
    (hnd : (l.map (·.1)).Nodup) (h : (n, v) ∈ l) : lookupAssoc l n = some v := by
  induction l with
  | nil => simp at h
  | cons p rest ih =>
    obtain ⟨k, w⟩ := p
    have hnd2 := hnd
    rw [List.map_cons, List.nodup_cons] at hnd2
    rcases List.mem_cons.mp h with he | hm
    · rw [Prod.ext_iff] at he
      obtain ⟨h1, h2⟩ := he
      simp only [Prod.fst, Prod.snd] at h1 h2
      simp [lookupAssoc, ← h1, ← h2]
    · have hk : ¬ k = n := by
        intro hkn
        exact hnd2.1 (List.mem_map.mpr ⟨(n, v), hm, hkn.symm⟩)
      simpa [lookupAssoc, hk] using ih hnd2.2 hm

theorem specEntryPoints_sub_keys {σ α : Type} (dct : ClassDict σ α) (x : String)
    (h : x ∈ specEntryPoints dct) : x ∈ dct.map (·.1) := by
  rcases List.mem_map.mp h with ⟨p, hp, rfl⟩
  exact List.mem_map.mpr ⟨p, (List.mem_filter.mp hp).1, rfl⟩

theorem startMethods_sub_keys {σ α : Type} (fc : FlowClass σ α) (x : String)
    (h : x ∈ fc.startMethods) : x ∈ fc.dct.map (·.1) := by
  rw [FlowClass.startMethods, buildStartMethods_eq_spec] at h
  exact specEntryPoints_sub_keys fc.dct x h

theorem listenerMap_values_sub_keys {σ α : Type} (fc : FlowClass σ α) (t x : String)
    (h : x ∈ lookupListD fc.listenerMap t) : x ∈ fc.dct.map (·.1) := by
  rcases (mem_buildListeners fc.dct t x).mp h with ⟨p, hp, rfl, _⟩
  exact List.mem_map.mpr ⟨p, hp, rfl⟩

/-! Bridge between the boolean trace observers and propositions. -/

theorem traceMentions_eq_false_iff {α : Type} (tr : List (Ev α)) (n : String) :
    traceMentions tr n = false ↔ ∀ ev ∈ tr, ev.name ≠ n := by
  induction tr with
  | nil => simp [traceMentions]
  | cons ev tr ih =>
    by_cases he : ev.name = n
    · simp [traceMentions, he]
    · simp [traceMentions, he, ih]

/-! Unfolding lemmas for the execution engine. -/

theorem execGo_nil {σ α : Type} (fc : FlowClass σ α) (f : Nat) (r : α) (s : σ) :
    execGo fc f [] r s = .done [] s := by
  cases f <;> rfl

theorem execGo_zero {σ α : Type} (fc : FlowClass σ α) (l : String) (rest : List String)
    (r : α) (s : σ) : execGo fc 0 (l :: rest) r s = .fuelOut [] := rfl

theorem execGo_cons_keyerr {σ α : Type} (fc : FlowClass σ α) (f : Nat) (l : String)
    (rest : List String) (r : α) (s : σ) (hb : fc.findBody l = none) :
    execGo fc (f + 1) (l :: rest) r s = .done [.report l ("KeyError")] s := by
  simp [execGo, hb]

theorem execGo_cons_raise {σ α : Type} (fc : FlowClass σ α) (f : Nat) (l : String)
    (rest : List String) (r : α) (s s1 : σ) (b : StepBody σ α) (msg : String)
    (hb : fc.findBody l = some b) (he : b s (some r) = (s1, .error msg)) :
    execGo fc (f + 1) (l :: rest) r s = .done [.call l (some r), .report l msg] s1 := by
  simp [execGo, hb, he]

theorem execGo_cons_ok {σ α : Type} (fc : FlowClass σ α) (f : Nat) (l : String)
    (rest : List String) (r r1 : α) (s s1 : σ) (b : StepBody σ α)
    (hb : fc.findBody l = some b) (he : b s (some r) = (s1, .ok r1)) :
    execGo fc (f + 1) (l :: rest) r s =
      match execListeners fc f l r1 s1 with
      | .fuelOut tr => .fuelOut (.call l (some r) :: tr)
      | .done tr s2 =>
        match execGo fc f rest r s2 with
        | .fuelOut tr2 => .fuelOut (.call l (some r) :: (tr ++ tr2))
        | .done tr2 s3 => .done (.call l (some r) :: (tr ++ tr2)) s3 := by
  simp only [execGo, hb, he]
  rfl

theorem runLoop_nil {σ α : Type} (fc : FlowClass σ α) (fuel : Nat) (s : σ) :
    runLoop fc fuel [] s = .ok [] s := rfl

theorem runLoop_cons_keyerr {σ α : Type} (fc : FlowClass σ α) (fuel : Nat) (m : String)
    (rest : List String) (s : σ) (hb : fc.findBody m = none) :
    runLoop fc fuel (m :: rest) s = .raised ("KeyError") [] s := by
  simp [runLoop, hb]

theorem runLoop_cons_raise {σ α : Type} (fc : FlowClass σ α) (fuel : Nat) (m : String)
    (rest : List String) (s s1 : σ) (b : StepBody σ α) (msg : String)
    (hb : fc.findBody m = some b) (he : b s none = (s1, .error msg)) :
    runLoop fc fuel (m :: rest) s = .raised msg [.call m none] s1 := by
  simp [runLoop, hb, he]

theorem runLoop_cons_ok {σ α : Type} (fc : FlowClass σ α) (fuel : Nat) (m : String)
    (rest : List String) (r : α) (s s1 : σ) (b : StepBody σ α)
    (hb : fc.findBody m = some b) (he : b s none = (s1, .ok r)) :
    runLoop fc fuel (m :: rest) s =
      match execListeners fc fuel m r s1 with
      | .fuelOut tr => .fuelOut (.call m none :: tr)
      | .done tr s2 =>
        match runLoop fc fuel rest s2 with
        | .ok tr2 s3 => .ok (.call m none :: (tr ++ tr2)) s3
        | .raised msg tr2 s3 => .raised msg (.call m none :: (tr ++ tr2)) s3
        | .fuelOut tr2 => .fuelOut (.call m none :: (tr ++ tr2)) := by
  simp only [runLoop, hb, he]

/-! Trace membership lemmas. -/

theorem mem_execListeners_trace {σ α : Type} (fc : FlowClass σ α) (f : Nat) (t : String)
    (r : α) (s : σ) (ev : Ev α) (h : ev ∈ (execListeners fc f t r s).trace) :
    ∃ ls1, lookupAssoc fc.listenerMap t = some ls1 ∧ ev ∈ (execGo fc f ls1 r s).trace := by
  unfold execListeners at h
  cases hl : lookupAssoc fc.listenerMap t with
  | none =>
    rw [hl] at h
    simp [ExecOut.trace] at h
  | some ls1 =>
    rw [hl] at h
    exact ⟨ls1, rfl, h⟩

theorem mem_trace_execGo_cons_ok {σ α : Type} (fc : FlowClass σ α) (f : Nat) (l : String)
    (rest : List String) (r r1 : α) (s s1 : σ) (b : StepBody σ α) (ev : Ev α)
    (hb : fc.findBody l = some b) (he : b s (some r) = (s1, .ok r1))
    (h : ev ∈ (execGo fc (f + 1) (l :: rest) r s).trace) :
    ev = .call l (some r) ∨ ev ∈ (execListeners fc f l r1 s1).trace ∨
      ∃ s2 tr, execListeners fc f l r1 s1 = .done tr s2 ∧
        ev ∈ (execGo fc f rest r s2).trace := by
  rw [execGo_cons_ok fc f l rest r r1 s s1 b hb he] at h
  cases hd : execListeners fc f l r1 s1 with
  | fuelOut tr =>
    rw [hd] at h
    simp only [ExecOut.trace] at h
    rcases List.mem_cons.mp h with he2 | h2
    · exact Or.inl he2
    · exact Or.inr (Or.inl h2)
  | done tr s2 =>
    rw [hd] at h
    dsimp only at h
    cases hs : execGo fc f rest r s2 with
    | fuelOut tr2 =>
      rw [hs] at h
      simp only [ExecOut.trace] at h
      rcases List.mem_cons.mp h with he2 | h2
      · exact Or.inl he2
      · rcases List.mem_append.mp h2 with h3 | h3
        · exact Or.inr (Or.inl h3)
        · exact Or.inr (Or.inr ⟨s2, tr, rfl, by rw [hs]; exact h3⟩)
    | done tr2 s3 =>
      rw [hs] at h
      simp only [ExecOut.trace] at h
      rcases List.mem_cons.mp h with he2 | h2
      · exact Or.inl he2
      · rcases List.mem_append.mp h2 with h3 | h3
        · exact Or.inr (Or.inl h3)
        · exact Or.inr (Or.inr ⟨s2, tr, rfl, by rw [hs]; exact h3⟩)

theorem mem_trace_runLoop_cons_ok {σ α : Type} (fc : FlowClass σ α) (fuel : Nat) (m : String)
    (rest : List String) (r : α) (s s1 : σ) (b : StepBody σ α) (ev : Ev α)
    (hb : fc.findBody m = some b) (he : b s none = (s1, .ok r))
    (h : ev ∈ (runLoop fc fuel (m :: rest) s).trace) :
    ev = .call m none ∨ ev ∈ (execListeners fc fuel m r s1).trace ∨
      ∃ s2 tr, execListeners fc fuel m r s1 = .done tr s2 ∧
        ev ∈ (runLoop fc fuel rest s2).trace := by
  rw [runLoop_cons_ok fc fuel m rest r s s1 b hb he] at h
  cases hd : execListeners fc fuel m r s1 with
  | fuelOut tr =>
    rw [hd] at h
    simp only [RunOut.trace] at h
    rcases List.mem_cons.mp h with he2 | h2
    · exact Or.inl he2
    · exact Or.inr (Or.inl h2)
  | done tr s2 =>
    rw [hd] at h
    dsimp only at h
    cases hs : runLoop fc fuel rest s2 with
    | ok tr2 s3 =>
      rw [hs] at h
      simp only [RunOut.trace] at h
      rcases List.mem_cons.mp h with he2 | h2
      · exact Or.inl he2
      · rcases List.mem_append.mp h2 with h3 | h3
        · exact Or.inr (Or.inl h3)
        · exact Or.inr (Or.inr ⟨s2, tr, rfl, by rw [hs]; exact h3⟩)
    | raised msg tr2 s3 =>
      rw [hs] at h
      simp only [RunOut.trace] at h
      rcases List.mem_cons.mp h with he2 | h2
      · exact Or.inl he2
      · rcases List.mem_append.mp h2 with h3 | h3
        · exact Or.inr (Or.inl h3)
        · exact Or.inr (Or.inr ⟨s2, tr, rfl, by rw [hs]; exact h3⟩)
    | fuelOut tr2 =>
      rw [hs] at h
      simp only [RunOut.trace] at h
      rcases List.mem_cons.mp h with he2 | h2
      · exact Or.inl he2
      · rcases List.mem_append.mp h2 with h3 | h3
        · exact Or.inr (Or.inl h3)
        · exact Or.inr (Or.inr ⟨s2, tr, rfl, by rw [hs]; exact h3⟩)

/-! Global trace invariants of the listener loop, by induction on fuel.
Both recursive calls of the loop keep the fuel strictly below the
starting fuel, so induction on fuel alone suffices. -/

theorem execGo_no_entry_call {σ α : Type} (fc : FlowClass σ α) :
    ∀ (f : Nat) (ls : List String) (r : α) (s : σ) (m : String),
      Ev.call m none ∉ (execGo fc f ls r s).trace := by
  intro f
  induction f with
  | zero =>
    intro ls r s m
    cases ls with
    | nil => simp [execGo_nil, ExecOut.trace]
    | cons l rest => simp [execGo_zero, ExecOut.trace]
  | succ f ih =>
    intro ls r s m
    cases ls with
    | nil => simp [execGo_nil, ExecOut.trace]
    | cons l rest =>
      intro hmem
      cases hb : fc.findBody l with
      | none =>
        rw [execGo_cons_keyerr fc f l rest r s hb] at hmem
        simp [ExecOut.trace] at hmem
      | some b =>
        rcases hbr : b s (some r) with ⟨s1, res⟩
        cases res with
        | error msg =>
          rw [execGo_cons_raise fc f l rest r s s1 b msg hb hbr] at hmem
          simp [ExecOut.trace] at hmem
        | ok r1 =>
          rcases mem_trace_execGo_cons_ok fc f l rest r r1 s s1 b _ hb hbr hmem with
            he | hm | ⟨s2, tr, _, hm⟩
          · simp at he
          · rcases mem_execListeners_trace fc f l r1 s1 _ hm with ⟨ls1, _, hm2⟩
            exact ih ls1 r1 s1 m hm2
          · exact ih rest r s2 m hm

theorem execGo_name_mem {σ α : Type} (fc : FlowClass σ α) :
    ∀ (f : Nat) (ls : List String) (r : α) (s : σ) (ev : Ev α),
      ev ∈ (execGo fc f ls r s).trace →
        ev.name ∈ ls ∨ ∃ t, ev.name ∈ lookupListD fc.listenerMap t := by
  intro f
  induction f with
  | zero =>
    intro ls r s ev h
    cases ls with
    | nil => simp [execGo_nil, ExecOut.trace] at h
    | cons l rest => simp [execGo_zero, ExecOut.trace] at h
  | succ f ih =>
    intro ls r s ev h
    cases ls with
    | nil => simp [execGo_nil, ExecOut.trace] at h
    | cons l rest =>
      cases hb : fc.findBody l with
      | none =>
        rw [execGo_cons_keyerr fc f l rest r s hb] at h
        simp [ExecOut.trace] at h
        subst h
        exact Or.inl (by simp [Ev.name])
      | some b =>
        rcases hbr : b s (some r) with ⟨s1, res⟩
        cases res with
        | error msg =>
          rw [execGo_cons_raise fc f l rest r s s1 b msg hb hbr] at h
          simp [ExecOut.trace] at h
          rcases h with rfl | rfl
          · exact Or.inl (by simp [Ev.name])
          · exact Or.inl (by simp [Ev.name])
        | ok r1 =>
          rcases mem_trace_execGo_cons_ok fc f l rest r r1 s s1 b ev hb hbr h with
            he | hm | ⟨s2, tr, _, hm⟩
          · subst he
            exact Or.inl (by simp [Ev.name])
          · rcases mem_execListeners_trace fc f l r1 s1 ev hm with ⟨ls1, hl, hm2⟩
            rcases ih ls1 r1 s1 ev hm2 with h1 | ⟨t, ht⟩
            · exact Or.inr ⟨l, by simpa [lookupListD, hl] using h1⟩
            · exact Or.inr ⟨t, ht⟩
          · rcases ih rest r s2 ev hm with h1 | h2
            · exact Or.inl (List.mem_cons_of_mem _ h1)
            · exact Or.inr h2

theorem execGo_avoid {σ α : Type} (fc : FlowClass σ α) (L : String)
    (HB : ∀ t, L ∈ lookupListD fc.listenerMap t → t ∉ fc.dct.map (·.1)) :
    ∀ (f : Nat) (ls : List String) (r : α) (s : σ),
      L ∉ ls → (∀ x ∈ ls, x ∈ fc.dct.map (·.1)) →
      ∀ ev ∈ (execGo fc f ls r s).trace, ev.name ≠ L := by
  intro f
  induction f with
  | zero =>
    intro ls r s _ _ ev h
    cases ls with
    | nil => simp [execGo_nil, ExecOut.trace] at h
    | cons l rest => simp [execGo_zero, ExecOut.trace] at h
  | succ f ih =>
    intro ls r s hnL hkeys ev h
    cases ls with
    | nil => simp [execGo_nil, ExecOut.trace] at h
    | cons l rest =>
      have hlL : l ≠ L := fun he => hnL (he ▸ List.mem_cons_self l rest)
      have hnL2 : L ∉ rest := fun hm => hnL (List.mem_cons_of_mem l hm)
      have hkeys2 : ∀ x ∈ rest, x ∈ fc.dct.map (·.1) :=
        fun x hx => hkeys x (List.mem_cons_of_mem l hx)
      cases hb : fc.findBody l with
      | none =>
        rw [execGo_cons_keyerr fc f l rest r s hb] at h
        simp [ExecOut.trace] at h
        subst h
        simpa [Ev.name] using hlL
      | some b =>
        rcases hbr : b s (some r) with ⟨s1, res⟩
        cases res with
        | error msg =>
          rw [execGo_cons_raise fc f l rest r s s1 b msg hb hbr] at h
          simp [ExecOut.trace] at h
          rcases h with rfl | rfl
          · simpa [Ev.name] using hlL
          · simpa [Ev.name] using hlL
        | ok r1 =>
          rcases mem_trace_execGo_cons_ok fc f l rest r r1 s s1 b ev hb hbr h with
            he | hm | ⟨s2, tr, _, hm⟩
          · subst he
            simpa [Ev.name] using hlL
          · rcases mem_execListeners_trace fc f l r1 s1 ev hm with ⟨ls1, hl, hm2⟩
            have hls1 : ls1 = lookupListD fc.listenerMap l := by
              simp [lookupListD, hl]
            have hLls1 : L ∉ ls1 := by
              rw [hls1]
              intro hc
              exact HB l hc (hkeys l (List.mem_cons_self l rest))
            have hkeys1 : ∀ x ∈ ls1, x ∈ fc.dct.map (·.1) := by
              intro x hx
              exact listenerMap_values_sub_keys fc l x (hls1 ▸ hx)
            exact ih ls1 r1 s1 hLls1 hkeys1 ev hm2
          · exact ih rest r s2 hnL2 hkeys2 ev hm


/-! Run level consequences. -/

theorem runLoop_not_raised {σ α : Type} (fc : FlowClass σ α) (fuel : Nat) :
    ∀ (ms : List String) (s : σ), entriesOk fc ms →
      (runLoop fc fuel ms s).isRaised = false := by
  intro ms
  induction ms with
  | nil =>
    intro s _
    rfl
  | cons m rest ih =>
    intro s hok
    obtain ⟨b, hb, hbody⟩ := hok m (List.mem_cons_self m rest)
    obtain ⟨r, s1, he⟩ := hbody s
    have hok2 : entriesOk fc rest := fun x hx => hok x (List.mem_cons_of_mem m hx)
    rw [runLoop_cons_ok fc fuel m rest r s s1 b hb he]
    cases hd : execListeners fc fuel m r s1 with
    | fuelOut tr => rfl
    | done tr s2 =>
      dsimp only
      cases hs : runLoop fc fuel rest s2 with
      | ok tr2 s3 => rfl
      | raised msg tr2 s3 =>
        have hcontra := ih s2 hok2
        rw [hs] at hcontra
        simp [RunOut.isRaised] at hcontra
      | fuelOut tr2 => rfl

theorem runLoop_name_mem {σ α : Type} (fc : FlowClass σ α) (fuel : Nat) :
    ∀ (ms : List String) (s : σ) (ev : Ev α),
      ev ∈ (runLoop fc fuel ms s).trace →
        ev.name ∈ ms ∨ ∃ t, ev.name ∈ lookupListD fc.listenerMap t := by
  intro ms
  induction ms with
  | nil =>
    intro s ev h
    simp [runLoop_nil, RunOut.trace] at h
  | cons m rest ih =>
    intro s ev h
    cases hb : fc.findBody m with
    | none =>
      rw [runLoop_cons_keyerr fc fuel m rest s hb] at h
      simp [RunOut.trace] at h
    | some b =>
      rcases hbr : b s none with ⟨s1, res⟩
      cases res with
      | error msg =>
        rw [runLoop_cons_raise fc fuel m rest s s1 b msg hb hbr] at h
        simp [RunOut.trace] at h
        subst h
        exact Or.inl (by simp [Ev.name])
      | ok r =>
        rcases mem_trace_runLoop_cons_ok fc fuel m rest r s s1 b ev hb hbr h with
          he | hm | ⟨s2, tr, _, hm⟩
        · subst he
          exact Or.inl (by simp [Ev.name])
        · rcases mem_execListeners_trace fc fuel m r s1 ev hm with ⟨ls1, hl, hm2⟩
          rcases execGo_name_mem fc fuel ls1 r s1 ev hm2 with h1 | h2
          · exact Or.inr ⟨m, by simpa [lookupListD, hl] using h1⟩
          · exact Or.inr h2
        · rcases ih s2 ev hm with h1 | h2
          · exact Or.inl (List.mem_cons_of_mem _ h1)
          · exact Or.inr h2

theorem runLoop_avoid {σ α : Type} (fc : FlowClass σ α) (fuel : Nat) (L : String)
    (HB : ∀ t, L ∈ lookupListD fc.listenerMap t → t ∉ fc.dct.map (·.1)) :
    ∀ (ms : List String) (s : σ), L ∉ ms → (∀ x ∈ ms, x ∈ fc.dct.map (·.1)) →
      ∀ ev ∈ (runLoop fc fuel ms s).trace, ev.name ≠ L := by
  intro ms
  induction ms with
  | nil =>
    intro s _ _ ev h
    simp [runLoop_nil, RunOut.trace] at h
  | cons m rest ih =>
    intro s hnL hkeys ev h
    have hmL : m ≠ L := fun he => hnL (he ▸ List.mem_cons_self m rest)
    have hnL2 : L ∉ rest := fun hm => hnL (List.mem_cons_of_mem m hm)
    have hkeys2 : ∀ x ∈ rest, x ∈ fc.dct.map (·.1) :=
      fun x hx => hkeys x (List.mem_cons_of_mem m hx)
    cases hb : fc.findBody m with
    | none =>
      rw [runLoop_cons_keyerr fc fuel m rest s hb] at h
      simp [RunOut.trace] at h
    | some b =>
      rcases hbr : b s none with ⟨s1, res⟩
      cases res with
      | error msg =>
        rw [runLoop_cons_raise fc fuel m rest s s1 b msg hb hbr] at h
        simp [RunOut.trace] at h
        subst h
        simpa [Ev.name] using hmL
      | ok r =>
        rcases mem_trace_runLoop_cons_ok fc fuel m rest r s s1 b ev hb hbr h with
          he | hm | ⟨s2, tr, _, hm⟩
        · subst he
          simpa [Ev.name] using hmL
        · rcases mem_execListeners_trace fc fuel m r s1 ev hm with ⟨ls1, hl, hm2⟩
          have hls1 : ls1 = lookupListD fc.listenerMap m := by
            simp [lookupListD, hl]
          have hLls1 : L ∉ ls1 := by
            rw [hls1]
            intro hc
            exact HB m hc (hkeys m (List.mem_cons_self m rest))
          have hkeys1 : ∀ x ∈ ls1, x ∈ fc.dct.map (·.1) := by
            intro x hx
            exact listenerMap_values_sub_keys fc m x (hls1 ▸ hx)
          exact execGo_avoid fc L HB fuel ls1 r s1 hLls1 hkeys1 ev hm2
        · exact ih s2 hnL2 hkeys2 ev hm

theorem runLoop_blocks {σ α : Type} (fc : FlowClass σ α) (fuel : Nat) :
    ∀ (ms : List String) (s : σ) (tr : List (Ev α)) (sf : σ),
      entriesOk fc ms → runLoop fc fuel ms s = .ok tr sf →
      ∃ bls : List (List (Ev α)), bls.length = ms.length ∧ tr = blocksJoin ms bls ∧
        ∀ bl ∈ bls, ∀ m, Ev.call m none ∉ bl := by
  intro ms
  induction ms with
  | nil =>
    intro s tr sf _ h
    rw [runLoop_nil] at h
    obtain ⟨h1, h2⟩ := RunOut.ok.inj h
    exact ⟨[], by simp, by simp [← h1, blocksJoin], by simp⟩
  | cons m rest ih =>
    intro s tr sf hok hrun
    obtain ⟨b, hb, hbody⟩ := hok m (List.mem_cons_self m rest)
    obtain ⟨r, s1, he⟩ := hbody s
    have hok2 : entriesOk fc rest := fun x hx => hok x (List.mem_cons_of_mem m hx)
    rw [runLoop_cons_ok fc fuel m rest r s s1 b hb he] at hrun
    cases hd : execListeners fc fuel m r s1 with
    | fuelOut tr1 =>
      rw [hd] at hrun
      simp at hrun
    | done tr1 s2 =>
      rw [hd] at hrun
      dsimp only at hrun
      cases hs : runLoop fc fuel rest s2 with
      | raised msg tr2 s3 =>
        rw [hs] at hrun
        simp at hrun
      | fuelOut tr2 =>
        rw [hs] at hrun
        simp at hrun
      | ok tr2 s3 =>
        rw [hs] at hrun
        obtain ⟨h1, h2⟩ := RunOut.ok.inj hrun
        obtain ⟨bls, hlen, hjoin, hfree⟩ := ih s2 tr2 s3 hok2 hs
        refine ⟨tr1 :: bls, by simp [hlen], ?_, ?_⟩
        · rw [← h1, hjoin]
          simp [blocksJoin]
        · intro bl hbl mm
          rcases List.mem_cons.mp hbl with rfl | hbl2
          · intro hc
            have hmem : Ev.call mm none ∈ (execListeners fc fuel m r s1).trace := by
              rw [hd]
              exact hc
            rcases mem_execListeners_trace fc fuel m r s1 _ hmem with ⟨ls1, _, hm2⟩
            exact execGo_no_entry_call fc fuel ls1 r s1 mm hm2
          · exact hfree bl hbl2 mm


/-! Further helper lemmas: trace heads, block decomposition helpers,
and class dict construction. -/

theorem execListeners_eq_of_lookup {σ α : Type} (fc : FlowClass σ α) (fuel : Nat)
    (t : String) (r : α) (s : σ) (ls : List String)
    (hl : lookupAssoc fc.listenerMap t = some ls) :
    execListeners fc fuel t r s = execGo fc fuel ls r s := by
  unfold execListeners
  rw [hl]

theorem execGo_trace_head {σ α : Type} (fc : FlowClass σ α) (f : Nat) (l : String)
    (rest : List String) (r : α) (s : σ) (b : StepBody σ α)
    (hb : fc.findBody l = some b) :
    ∃ tr, (execGo fc (f + 1) (l :: rest) r s).trace = .call l (some r) :: tr := by
  rcases hbr : b s (some r) with ⟨s1, res⟩
  cases res with
  | error msg =>
    rw [execGo_cons_raise fc f l rest r s s1 b msg hb hbr]
    exact ⟨[.report l msg], rfl⟩
  | ok r1 =>
    rw [execGo_cons_ok fc f l rest r r1 s s1 b hb hbr]
    cases hd : execListeners fc f l r1 s1 with
    | fuelOut tr => exact ⟨tr, rfl⟩
    | done tr s2 =>
      dsimp only
      cases hs : execGo fc f rest r s2 with
      | fuelOut tr2 => exact ⟨tr ++ tr2, rfl⟩
      | done tr2 s3 => exact ⟨tr ++ tr2, rfl⟩

theorem execGo_cons_ok_trace {σ α : Type} (fc : FlowClass σ α) (f : Nat) (l : String)
    (rest : List String) (r r1 : α) (s s1 : σ) (b : StepBody σ α)
    (hb : fc.findBody l = some b) (he : b s (some r) = (s1, .ok r1)) :
    ∃ tl, (execGo fc (f + 1) (l :: rest) r s).trace =
      .call l (some r) :: ((execListeners fc f l r1 s1).trace ++ tl) := by
  rw [execGo_cons_ok fc f l rest r r1 s s1 b hb he]
  cases hd : execListeners fc f l r1 s1 with
  | fuelOut tr => exact ⟨[], by simp [ExecOut.trace]⟩
  | done tr s2 =>
    dsimp only
    cases hs : execGo fc f rest r s2 with
    | fuelOut tr2 => exact ⟨tr2, by simp [ExecOut.trace]⟩
    | done tr2 s3 => exact ⟨tr2, by simp [ExecOut.trace]⟩

theorem runLoop_trace_head {σ α : Type} (fc : FlowClass σ α) (fuel : Nat) (m : String)
    (rest : List String) (s : σ) (b : StepBody σ α) (hb : fc.findBody m = some b) :
    ∃ tr, (runLoop fc fuel (m :: rest) s).trace = .call m none :: tr := by
  rcases hbr : b s none with ⟨s1, res⟩
  cases res with
  | error msg =>
    rw [runLoop_cons_raise fc fuel m rest s s1 b msg hb hbr]
    exact ⟨[], rfl⟩
  | ok r =>
    rw [runLoop_cons_ok fc fuel m rest r s s1 b hb hbr]
    cases hd : execListeners fc fuel m r s1 with
    | fuelOut tr => exact ⟨tr, rfl⟩
    | done tr s2 =>
      dsimp only
      cases hs : runLoop fc fuel rest s2 with
      | ok tr2 s3 => exact ⟨tr ++ tr2, rfl⟩
      | raised msg tr2 s3 => exact ⟨tr ++ tr2, rfl⟩
      | fuelOut tr2 => exact ⟨tr ++ tr2, rfl⟩

theorem runLoop_cons_ok_trace {σ α : Type} (fc : FlowClass σ α) (fuel : Nat) (m : String)
    (rest : List String) (r : α) (s s1 : σ) (b : StepBody σ α)
    (hb : fc.findBody m = some b) (he : b s none = (s1, .ok r)) :
    ∃ tl, (runLoop fc fuel (m :: rest) s).trace =
      .call m none :: ((execListeners fc fuel m r s1).trace ++ tl) := by
  rw [runLoop_cons_ok fc fuel m rest r s s1 b hb he]
  cases hd : execListeners fc fuel m r s1 with
  | fuelOut tr => exact ⟨[], by simp [RunOut.trace, ExecOut.trace]⟩
  | done tr s2 =>
    dsimp only
    cases hs : runLoop fc fuel rest s2 with
    | ok tr2 s3 => exact ⟨tr2, by simp [RunOut.trace, ExecOut.trace]⟩
    | raised msg tr2 s3 => exact ⟨tr2, by simp [RunOut.trace, ExecOut.trace]⟩
    | fuelOut tr2 => exact ⟨tr2, by simp [RunOut.trace, ExecOut.trace]⟩

theorem entryCallNames_append {α : Type} (a b : List (Ev α)) :
    entryCallNames (a ++ b) = entryCallNames a ++ entryCallNames b := by
  simp [entryCallNames, List.filterMap_append]

theorem entryCallNames_eq_nil_of_free {α : Type} (bl : List (Ev α))
    (h : ∀ m, Ev.call m none ∉ bl) : entryCallNames bl = [] := by
  rw [entryCallNames, List.filterMap_eq_nil_iff]
  intro ev hev
  cases ev with
  | report nm msg => rfl
  | call nm i =>
    cases i with
    | none => exact absurd hev (h nm)
    | some x => rfl

theorem entryCallNames_blocksJoin {α : Type} :
    ∀ (ms : List String) (bls : List (List (Ev α))), bls.length = ms.length →
      (∀ bl ∈ bls, ∀ m, Ev.call m none ∉ bl) →
      entryCallNames (blocksJoin ms bls) = ms := by
  intro ms
  induction ms with
  | nil =>
    intro bls hlen _
    have hb : bls = [] := List.length_eq_zero.mp hlen
    subst hb
    rfl
  | cons m ms ih =>
    intro bls hlen hfree
    cases bls with
    | nil => simp at hlen
    | cons bl bls2 =>
      have hfree1 : entryCallNames bl = [] :=
        entryCallNames_eq_nil_of_free bl (hfree bl (List.mem_cons_self bl bls2))
      have hfree2 : ∀ b2 ∈ bls2, ∀ m2, Ev.call m2 none ∉ b2 :=
        fun b2 hb2 => hfree b2 (List.mem_cons_of_mem bl hb2)
      have hlen2 : bls2.length = ms.length := by simpa using hlen
      show entryCallNames (Ev.call m none :: (bl ++ blocksJoin ms bls2)) = m :: ms
      rw [entryCallNames]
      rw [List.filterMap_cons]
      simp only []
      rw [← entryCallNames, entryCallNames_append, hfree1, ih bls2 hlen2 hfree2]
      rfl

theorem RunOut.isOk_of_flags {σ α : Type} (o : RunOut σ α)
    (h1 : o.isRaised = false) (h2 : o.isFuelOut = false) : o.isOk = true := by
  cases o with
  | ok tr s => rfl
  | raised msg tr s => simp [RunOut.isRaised] at h1
  | fuelOut tr => simp [RunOut.isFuelOut] at h2

theorem lookupAssoc_dictInsert_self {β : Type} (d : List (String × β)) (k : String) (v : β) :
    lookupAssoc (dictInsert d k v) k = some v := by
  induction d with
  | nil => simp [dictInsert, lookupAssoc]
  | cons p rest ih =>
    obtain ⟨k1, v1⟩ := p
    by_cases hk : k1 = k
    · simp [dictInsert, hk, lookupAssoc]
    · simp [dictInsert, hk, lookupAssoc, ih]

theorem lookupAssoc_dictInsert_other {β : Type} (d : List (String × β)) (k k2 : String)
    (v : β) (h : k2 ≠ k) : lookupAssoc (dictInsert d k v) k2 = lookupAssoc d k2 := by
  induction d with
  | nil => simp [dictInsert, lookupAssoc, Ne.symm h]
  | cons p rest ih =>
    obtain ⟨k1, v1⟩ := p
    by_cases hk : k1 = k
    · subst hk
      simp [dictInsert, lookupAssoc, Ne.symm h]
    · simp [dictInsert, hk, lookupAssoc, ih]

theorem lookupAssoc_append {β : Type} (l1 l2 : List (String × β)) (k : String) :
    lookupAssoc (l1 ++ l2) k =
      match lookupAssoc l1 k with
      | some v => some v
      | none => lookupAssoc l2 k := by
  induction l1 with
  | nil => simp [lookupAssoc]
  | cons p rest ih =>
    obtain ⟨k1, v1⟩ := p
    by_cases hk : k1 = k
    · simp [lookupAssoc, hk]
    · simp [lookupAssoc, hk, ih]

theorem classDict_go_lookup {β : Type} (k : String) :
    ∀ (body : List (String × β)) (d : List (String × β)),
      lookupAssoc (body.foldl (fun d2 p => dictInsert d2 p.1 p.2) d) k =
        match lookupAssoc body.reverse k with
        | some v => some v
        | none => lookupAssoc d k := by
  intro body
  induction body with
  | nil =>
    intro d
    simp [lookupAssoc]
  | cons p body ih =>
    intro d
    simp only [List.foldl_cons, List.reverse_cons]
    rw [ih (dictInsert d p.1 p.2)]
    rw [lookupAssoc_append]
    cases hres : lookupAssoc body.reverse k with
    | some v => rfl
    | none =>
      by_cases hk : p.1 = k
      · subst hk
        simp [lookupAssoc, lookupAssoc_dictInsert_self]
      · simp [lookupAssoc, hk, lookupAssoc_dictInsert_other d p.1 k p.2 (Ne.symm hk)]

/-! Claim theorems. -/

/-- C1 counterexample: in the scenario of the claim (entry point x,
listener y on x whose body raises, and a second, independent listener z
on x), the run completes with y invoked and its error reported, but z is
never invoked with the x result: the `return` in the `except` branch of
`_execute_listeners` leaves the listener loop, so a failing listener
also cancels its not yet invoked siblings on the same trigger. -/
theorem C1_sibling_cancelled_cex :
    runFlow cexSiblingFlow 10 () =
      .ok [.call ("x") none, .call ("y") (some 0), .report ("y") "boom"] () ∧
    traceMentions (runFlow cexSiblingFlow 10 ()).trace ("z") = false := by
  exact ⟨by decide, by decide⟩

/-- C1 amended: when invoking a listener raises, `_execute_listeners`
reports the error and returns at once, so the dispatch of that trigger
produces exactly the failing invocation and its report: the failing
listener subtree is pruned and the not yet invoked sibling listeners of
the same trigger are dropped as well; the ancestor chain and later
entry points continue (the counterexample run still completes). -/
theorem C1_listener_error_prunes_rest {σ α : Type} (fc : FlowClass σ α) (f : Nat)
    (l : String) (rest : List String) (r : α) (s s1 : σ) (b : StepBody σ α) (msg : String)
    (hb : fc.findBody l = some b) (he : b s (some r) = (s1, .error msg)) :
    execGo fc (f + 1) (l :: rest) r s = .done [.call l (some r), .report l msg] s1 :=
  execGo_cons_raise fc f l rest r s s1 b msg hb he

/-- C1 witness: the amended statement at the concrete scenario flow,
dispatching trigger x with pending listeners y then z. -/
theorem C1_listener_error_prunes_rest_witness :
    execGo cexSiblingFlow 5 ["y", "z"] 0 () =
      .done [.call ("y") (some 0), .report ("y") "boom"] () :=
  C1_listener_error_prunes_rest cexSiblingFlow 4 ("y") ["z"] 0 () ()
    (fun s _ => (s, .error ("boom"))) "boom" rfl rfl

/-- C2 counterexample: the entry point invocations in `run` sit in no
`try`, so an error raised by an entry point body unwinds out of `run`,
contradicting the claim that only the configuration error can make
`run` fail. -/
theorem C2_entry_error_escapes_cex :
    runFlow cexEntryRaiseFlow 10 () = .raised ("boom") [.call ("a") none] () := by
  decide

/-- C2 amended: errors raised by listener steps are caught at the `try`
in `_execute_listeners` and never unwind out of `run`; `run` avoids
raising whenever it has at least one entry point and every entry point
body returns normally, however many listeners raise. -/
theorem C2_run_not_raised_of_entries_ok {σ α : Type} (fc : FlowClass σ α) (fuel : Nat)
    (s0 : σ) (hne : fc.startMethods ≠ []) (hok : entriesOk fc fc.startMethods) :
    (runFlow fc fuel s0).isRaised = false := by
  simp only [runFlow, if_neg hne]
  exact runLoop_not_raised fc fuel fc.startMethods s0 hok

/-- C2 witness: the sibling scenario flow contains a raising listener,
yet its run does not raise. -/
theorem C2_run_not_raised_of_entries_ok_witness :
    (runFlow cexSiblingFlow 10 ()).isRaised = false :=
  C2_run_not_raised_of_entries_ok cexSiblingFlow 10 () (by decide)
    (by
      intro m hm
      have h2 : cexSiblingFlow.startMethods = ["x"] := by decide
      rw [h2] at hm
      have hmx : m = "x" := by simpa using hm
      subst hmx
      exact ⟨fun s _ => (s, .ok 0), rfl, fun st => ⟨0, st, rfl⟩⟩)

/-- C5: `run` fails with the configuration error exactly when the entry
point list is empty, before invoking any step (the trace of that
failure is empty); with at least one entry point the check passes and
the first entry point is invoked before anything can fail (the
`findBody` hypothesis records that the first entry point resolves in
the method registry, which holds for every method declared in the class
body under a non dunder name). -/
theorem C5_no_entry_precondition {σ α : Type} (fc : FlowClass σ α) (fuel : Nat) (s0 : σ) :
    (fc.startMethods = [] →
      runFlow fc fuel s0 = .raised ("No start method defined") [] s0) ∧
    (∀ (m : String) (ms : List String) (b : StepBody σ α),
      fc.startMethods = m :: ms → fc.findBody m = some b →
      ∃ tr, (runFlow fc fuel s0).trace = .call m none :: tr) := by
  constructor
  · intro h
    simp only [runFlow, if_pos h]
  · intro m ms b hs hb
    have hne : fc.startMethods ≠ [] := by
      rw [hs]
      simp
    simp only [runFlow, if_neg hne]
    rw [hs]
    exact runLoop_trace_head fc fuel m ms s0 b hb

/-- C5 witness: the empty flow raises the configuration error with an
empty trace; the chain scenario flow passes the check and its first
entry point is invoked. -/
theorem C5_no_entry_precondition_witness :
    runFlow emptyFlow 5 () = .raised ("No start method defined") [] () ∧
    ∃ tr, (runFlow chainFlow 10 ()).trace = .call ("fetch") none :: tr :=
  ⟨(C5_no_entry_precondition emptyFlow 5 ()).1 rfl,
   (C5_no_entry_precondition chainFlow 10 ()).2 ("fetch") []
     (fun s _ => (s, .ok 10)) rfl rfl⟩

/-- C7: the graph builder output matches its specification: the entry
point list is exactly the identifiers of the steps tagged as entry
points in declaration order, and, for listeners with duplicate free
trigger sets (triggers form a set in a process definition), the
listener list of every trigger is exactly the identifiers of the
listeners declaring that trigger, ordered by step declaration, not by
trigger listing. -/
theorem C7_builder_matches_spec {σ α : Type} (dct : ClassDict σ α)
    (h : ∀ p ∈ dct, p.2.triggers.Nodup) :
    buildStartMethods dct = specEntryPoints dct ∧
    ∀ t, lookupListD (buildListeners dct) t = specListenersAt dct t :=
  ⟨buildStartMethods_eq_spec dct, fun t => lookupListD_buildListeners dct t h⟩

/-- C7 witness: the builder output of the chain scenario class body
matches the spec description, here looked up at the fetch trigger. -/
theorem C7_builder_matches_spec_witness :
    buildStartMethods chainFlow.dct = specEntryPoints chainFlow.dct ∧
    lookupListD (buildListeners chainFlow.dct) "fetch" =
      specListenersAt chainFlow.dct ("fetch") :=
  ⟨(C7_builder_matches_spec chainFlow.dct (by decide)).1,
   (C7_builder_matches_spec chainFlow.dct (by decide)).2 ("fetch")⟩

/-- C8 counterexample: a class body declaring identifier a twice builds
with no error of any kind: the class dict silently keeps the later
declaration (the final state 222 shows the second body ran) and the
run completes normally, so no definition error is reported at build
time or later. -/
theorem C8_duplicate_id_no_error_cex :
    classDict dupBody = [("a", startAttr fun _ _ => (222, Except.ok 2))] ∧
    runFlow dupFlow 5 0 = .ok [.call ("a") none] 222 :=
  ⟨rfl, by decide⟩

/-- C8 amended: the builder performs no uniqueness check; a class body
declaring one identifier several times is collapsed by the Python dict
construction before the metaclass sees it, the last declaration winning
(at the position of the first), and nothing is reported: looking any
key up in the built class dict yields the value of its last occurrence
in the class body. -/
theorem C8_class_dict_last_wins {β : Type} (body : List (String × β)) (k : String) :
    lookupAssoc (classDict body) k = lookupAssoc body.reverse k := by
  simp only [classDict]
  rw [classDict_go_lookup k body []]
  cases h : lookupAssoc body.reverse k with
  | some v => rfl
  | none => rfl

/-- C9: `_create_initial_state` returns a freshly allocated empty dict
when `initial_state` is `None`; calls the supplied type when a type was
supplied, allocating a fresh instance; and otherwise returns the
supplied value itself: the very same object, same address, neither
copied nor changed, so the flow state aliases the caller value. -/
theorem C9_create_initial_state_cases (fresh : Nat) (c : Nat → PyObj) (o : PyObj) :
    createInitialState fresh .noneVal = ⟨fresh, .dict []⟩ ∧
    createInitialState fresh (.typeVal c) = c fresh ∧
    createInitialState fresh (.value o) = o ∧
    (createInitialState fresh (.value o)).addr = o.addr :=
  ⟨rfl, rfl, rfl, rfl⟩

/-- C3 counterexample: with entry points a (whose body raises) and b
declared in that order, `run` raises out of the unprotected entry loop
after invoking a, and b is never invoked: not every entry point is
invoked once. -/
theorem C3_entry_error_stops_entries_cex :
    runFlow cexTwoEntryFlow 10 () = .raised ("boom") [.call ("a") none] () ∧
    traceMentions (runFlow cexTwoEntryFlow 10 ()).trace ("b") = false :=
  ⟨by decide, by decide⟩

/-- C3 amended: provided every entry point body returns normally and
the run does not hit the recursion bound, `run` invokes every entry
point exactly once, in declaration order, strictly sequentially: the
trace decomposes into one block per entry point, each block opened by
that entry point invocation (with no upstream input) followed by its
listener subtree trace, which contains no entry point style call, so
the next entry point starts only after the previous subtree finished.
The unconditional original claim fails when an entry point raises, see
the counterexample. -/
theorem C3_entries_in_order {σ α : Type} (fc : FlowClass σ α) (fuel : Nat) (s0 : σ)
    (hne : fc.startMethods ≠ []) (hok : entriesOk fc fc.startMethods)
    (hnf : (runFlow fc fuel s0).isFuelOut = false) :
    ∃ tr sf bls, runFlow fc fuel s0 = .ok tr sf ∧
      bls.length = fc.startMethods.length ∧
      tr = blocksJoin fc.startMethods bls ∧
      (∀ bl ∈ bls, ∀ m, Ev.call m none ∉ bl) ∧
      entryCallNames tr = fc.startMethods := by
  have heq : runFlow fc fuel s0 = runLoop fc fuel fc.startMethods s0 := by
    simp only [runFlow, if_neg hne]
  have hr : (runFlow fc fuel s0).isRaised = false := by
    rw [heq]
    exact runLoop_not_raised fc fuel fc.startMethods s0 hok
  cases hc : runFlow fc fuel s0 with
  | raised msg tr sf =>
    rw [hc] at hr
    simp [RunOut.isRaised] at hr
  | fuelOut tr =>
    rw [hc] at hnf
    simp [RunOut.isFuelOut] at hnf
  | ok tr sf =>
    have hrl : runLoop fc fuel fc.startMethods s0 = .ok tr sf := by rw [← heq, hc]
    obtain ⟨bls, hlen, hjoin, hfree⟩ :=
      runLoop_blocks fc fuel fc.startMethods s0 tr sf hok hrl
    refine ⟨tr, sf, bls, rfl, hlen, hjoin, hfree, ?_⟩
    rw [hjoin]
    exact entryCallNames_blocksJoin fc.startMethods bls hlen hfree

/-- C3 witness: the amended statement at the two entry point scenario
flow. -/
theorem C3_entries_in_order_witness :
    ∃ tr sf bls, runFlow twoEntryFlow 10 () = .ok tr sf ∧
      bls.length = twoEntryFlow.startMethods.length ∧
      tr = blocksJoin twoEntryFlow.startMethods bls ∧
      (∀ bl ∈ bls, ∀ m, Ev.call m none ∉ bl) ∧
      entryCallNames tr = twoEntryFlow.startMethods :=
  C3_entries_in_order twoEntryFlow 10 () (by decide)
    (by
      intro m hm
      have h2 : twoEntryFlow.startMethods = ["a", "b"] := by decide
      rw [h2] at hm
      rcases List.mem_cons.mp hm with rfl | hm2
      · exact ⟨fun s _ => (s, .ok 1), rfl, fun st => ⟨1, st, rfl⟩⟩
      · rcases List.mem_cons.mp hm2 with rfl | hm3
        · exact ⟨fun s _ => (s, .ok 2), rfl, fun st => ⟨2, st, rfl⟩⟩
        · simp at hm3)
    (by decide)

/-- C4: multi hop chains propagate the immediate producer result: when
the first entry point is A, the first listener on A is B, the first
listener on B is C, and the invocations of A and B return normally with
results a and b, the run trace begins with A invoked with no input,
then B invoked with a, then C invoked with b: every listener receives
the result of its immediate producer, not that of the chain root. -/
theorem C4_chain_payload {σ α : Type} (fc : FlowClass σ α) (f : Nat) (s0 : σ)
    (A B C : String) (As Bs Cs : List String)
    (bA bB bC : StepBody σ α) (a b : α) (s1 s2 : σ)
    (hstart : fc.startMethods = A :: As)
    (hA : fc.findBody A = some bA) (hAr : bA s0 none = (s1, .ok a))
    (hla : lookupAssoc fc.listenerMap A = some (B :: Bs))
    (hB : fc.findBody B = some bB) (hBr : bB s1 (some a) = (s2, .ok b))
    (hlb : lookupAssoc fc.listenerMap B = some (C :: Cs))
    (hC : fc.findBody C = some bC) :
    ∃ tr, (runFlow fc (f + 2) s0).trace =
      .call A none :: .call B (some a) :: .call C (some b) :: tr := by
  have hne : fc.startMethods ≠ [] := by
    rw [hstart]
    simp
  have heq : runFlow fc (f + 1 + 1) s0 = runLoop fc (f + 1 + 1) (A :: As) s0 := by
    simp only [runFlow, if_neg hne]
    rw [hstart]
  obtain ⟨tlA, hA1⟩ := runLoop_cons_ok_trace fc (f + 1 + 1) A As a s0 s1 bA hA hAr
  have hEA : execListeners fc (f + 1 + 1) A a s1 = execGo fc (f + 1 + 1) (B :: Bs) a s1 :=
    execListeners_eq_of_lookup fc (f + 1 + 1) A a s1 (B :: Bs) hla
  obtain ⟨tlB, hB1⟩ := execGo_cons_ok_trace fc (f + 1) B Bs a b s1 s2 bB hB hBr
  have hEB : execListeners fc (f + 1) B b s2 = execGo fc (f + 1) (C :: Cs) b s2 :=
    execListeners_eq_of_lookup fc (f + 1) B b s2 (C :: Cs) hlb
  obtain ⟨tC, hC1⟩ := execGo_trace_head fc f C Cs b s2 bC hC
  refine ⟨tC ++ tlB ++ tlA, ?_⟩
  have e2 : f + 2 = f + 1 + 1 := rfl
  rw [e2, heq, hA1, hEA, hB1, hEB, hC1]
  simp [List.cons_append, List.append_assoc]

/-- C4 witness: the fetch, double, report scenario: fetch returns 10,
double receives 10 and returns 20, report receives 20, in that order. -/
theorem C4_chain_payload_witness :
    ∃ tr, (runFlow chainFlow 10 ()).trace =
      .call ("fetch") none :: .call ("double") (some 10) :: .call ("report") (some 20) :: tr :=
  C4_chain_payload chainFlow 8 () "fetch" "double" "report" [] [] []
    (fun s _ => (s, .ok 10)) (fun s r => (s, .ok (2 * r.getD 0)))
    (fun s r => (s, .ok (r.getD 0))) 10 20 () ()
    rfl rfl rfl rfl rfl rfl rfl rfl

/-- C6: a listener whose declared triggers name no declared step (in a
class dict with pairwise distinct keys) is never invoked and never
reported during `run`; and when the flow otherwise runs fine (some
entry point, entry bodies returning normally, no fuel exhaustion) the
run still completes without error: the dangling registration is
silently inert. -/
theorem C6_unresolvable_trigger_inert {σ α : Type} (fc : FlowClass σ α) (fuel : Nat)
    (s0 : σ) (L : String) (aL : Attr σ α)
    (hkeys : (fc.dct.map (·.1)).Nodup)
    (hmem : lookupAssoc fc.dct L = some aL)
    (hlis : aL.is_start = false)
    (htrig : aL.triggers ≠ [])
    (hbad : ∀ t ∈ aL.triggers, t ∉ fc.dct.map (·.1))
    (hne : fc.startMethods ≠ []) (hok : entriesOk fc fc.startMethods)
    (hnf : (runFlow fc fuel s0).isFuelOut = false) :
    traceMentions (runFlow fc fuel s0).trace L = false ∧
    (runFlow fc fuel s0).isOk = true := by
  have huniq : ∀ p ∈ fc.dct, p.1 = L → p.2 = aL := by
    intro p hp hp1
    have hmem2 : lookupAssoc fc.dct L = some p.2 := by
      apply lookupAssoc_eq_some_of_nodup fc.dct L p.2 hkeys
      rw [← hp1]
      simpa using hp
    rw [hmem] at hmem2
    exact (Option.some.inj hmem2).symm
  have HB : ∀ t, L ∈ lookupListD fc.listenerMap t → t ∉ fc.dct.map (·.1) := by
    intro t hLt
    rcases (mem_buildListeners fc.dct t L).mp hLt with ⟨p, hp, hp1, hpt⟩
    have hp2 : p.2 = aL := huniq p hp hp1
    rw [hp2] at hpt
    exact hbad t hpt
  have hstartL : L ∉ fc.startMethods := by
    intro hc
    rw [FlowClass.startMethods, buildStartMethods_eq_spec] at hc
    rcases List.mem_map.mp hc with ⟨p, hpf, hp1⟩
    have hp := (List.mem_filter.mp hpf).1
    have hp2 := (List.mem_filter.mp hpf).2
    have hpa : p.2 = aL := huniq p hp hp1
    rw [hpa, hlis] at hp2
    exact Bool.false_ne_true hp2
  have heq : runFlow fc fuel s0 = runLoop fc fuel fc.startMethods s0 := by
    simp only [runFlow, if_neg hne]
  constructor
  · rw [heq, traceMentions_eq_false_iff]
    exact runLoop_avoid fc fuel L HB fc.startMethods s0 hstartL
      (fun x hx => startMethods_sub_keys fc x hx)
  · refine RunOut.isOk_of_flags _ ?_ hnf
    rw [heq]
    exact runLoop_not_raised fc fuel fc.startMethods s0 hok

/-- C6 witness: the dangling listener flow: w (listening on the
undeclared name ghost) never appears in the trace and the run
completes. -/
theorem C6_unresolvable_trigger_inert_witness :
    traceMentions (runFlow danglingFlow 10 ()).trace ("w") = false ∧
    (runFlow danglingFlow 10 ()).isOk = true :=
  C6_unresolvable_trigger_inert danglingFlow 10 () "w"
    (listenAttr ["ghost"] fun s r => (s, .ok (r.getD 0)))
    (by decide) rfl rfl (by decide) (by decide) (by decide)
    (by
      intro m hm
      have h2 : danglingFlow.startMethods = ["x"] := by decide
      rw [h2] at hm
      have hmx : m = "x" := by simpa using hm
      subst hmx
      exact ⟨fun s _ => (s, .ok 0), rfl, fun st => ⟨0, st, rfl⟩⟩)
    (by decide)

/-- C10: the metaclass scans only the own class body, so a step
inherited from a parent class body and not redeclared in the child is
absent from the child entry point list and from every listener list of
the child listeners dict, and is never invoked nor reported during a
run of the child flow. -/
theorem C10_inherited_steps_inert {σ α : Type} (P C : ClassDict σ α) (n : String)
    (a : Attr σ α) (fuel : Nat) (s0 : σ)
    (hmem : (n, a) ∈ P)
    (hrole : a.is_start = true ∨ a.triggers ≠ [])
    (habs : n ∉ C.map (·.1)) :
    n ∉ (FlowClass.mk C P).startMethods ∧
    (∀ t, n ∉ lookupListD (FlowClass.mk C P).listenerMap t) ∧
    traceMentions (runFlow (FlowClass.mk C P) fuel s0).trace n = false := by
  have h1 : n ∉ (FlowClass.mk C P).startMethods := by
    intro hc
    exact habs (startMethods_sub_keys (FlowClass.mk C P) n hc)
  have h2 : ∀ t, n ∉ lookupListD (FlowClass.mk C P).listenerMap t := by
    intro t hc
    exact habs (listenerMap_values_sub_keys (FlowClass.mk C P) t n hc)
  refine ⟨h1, h2, ?_⟩
  by_cases hne : (FlowClass.mk C P).startMethods = []
  · simp only [runFlow, if_pos hne]
    rfl
  · simp only [runFlow, if_neg hne]
    rw [traceMentions_eq_false_iff]
    intro ev hev hevn
    rcases runLoop_name_mem (FlowClass.mk C P) fuel (FlowClass.mk C P).startMethods s0 ev
        hev with hm | ⟨t, hm⟩
    · rw [hevn] at hm
      exact h1 hm
    · rw [hevn] at hm
      exact h2 t hm

/-- C10 witness: the child flow inheriting entry point p and listener q
from the parent body: p is absent from the child graph and from the run
trace. -/
theorem C10_inherited_steps_inert_witness :
    "p" ∉ childFlow.startMethods ∧
    "p" ∉ lookupListD childFlow.listenerMap ("p") ∧
    traceMentions (runFlow childFlow 10 ()).trace ("p") = false := by
  obtain ⟨h1, h2, h3⟩ :=
    C10_inherited_steps_inert parentBody childBody ("p")
      (startAttr fun s _ => (s, .ok 1)) 10 ()
      (List.mem_cons_self _ _) (Or.inl rfl) (by decide)
  exact ⟨h1, h2 ("p"), h3⟩

end Crewai
